import Mathlib

/-!
Verification of the impg core (src/impg.rs): packed CIGAR operations, the
target-to-query projection walk, CIGAR parsing, the per-target interval
forest with direct and transitive range queries, and the snapshot
round-trip.  Machine integers (i32/u32) are embedded as Int/Nat with
explicit wrap-around where the source casts; the Rust loop over CIGAR ops
becomes a fold over an explicit cursor state, and the transitive worklist
loop becomes a fuel-indexed recursion (`none` = the loop did not finish
within the given number of pops).
-/

deriving instance DecidableEq for Except

namespace ImpgLib

/-- Modelled from the spec: alignment orientation tag (`Strand` lives in
paf.rs, outside the provided sources); a two-valued tag, Forward or
Reverse. -/
inductive Strand where
  | Forward
  | Reverse
deriving DecidableEq, Repr

/-- Modelled from the spec: PAF parse-error kind (`ParseErr` lives in
paf.rs, outside the provided sources); `parse_cigar_to_delta` only ever
produces `InvalidCigarFormat`. -/
inductive ParseErr where
  | InvalidCigarFormat
deriving DecidableEq, Repr

/-- One CIGAR operation packed as in the Rust `u32`: two opcode bits above
a 30-bit length. -/
structure CigarOp where
  val : Nat
deriving DecidableEq, Repr

/-- `CigarOp::new`: the opcode is validated, the length is cast `as u32`
without any range check (the cast wraps modulo 2^32). -/
def CigarOp.new (len : Int) (op : Char) : Except String CigarOp :=
  if op = '=' then .ok ⟨(0 <<< 30) ||| (len.emod 4294967296).toNat⟩
  else if op = 'X' then .ok ⟨(1 <<< 30) ||| (len.emod 4294967296).toNat⟩
  else if op = 'I' then .ok ⟨(2 <<< 30) ||| (len.emod 4294967296).toNat⟩
  else if op = 'D' then .ok ⟨(3 <<< 30) ||| (len.emod 4294967296).toNat⟩
  else .error "Invalid CIGAR operation"

/-- `CigarOp::op`: the two most significant bits select the opcode.  For a
real `u32` the shifted value is always 0..3; the final else arm plays the
role of the Rust arm for 3 (the `_ => panic!` arm is unreachable). -/
def CigarOp.op (c : CigarOp) : Char :=
  if c.val >>> 30 = 0 then '='
  else if c.val >>> 30 = 1 then 'X'
  else if c.val >>> 30 = 2 then 'I'
  else 'D'

/-- `CigarOp::len`: the low 30 bits, reinterpreted `as i32` (always
non-negative). -/
def CigarOp.len (c : CigarOp) : Int :=
  Int.ofNat (c.val &&& ((1 <<< 30) - 1))

/-- `CigarOp::target_delta`: `=`/`X`/`D` advance the target by `len`, `I`
does not. -/
def CigarOp.target_delta (c : CigarOp) : Int :=
  if c.op = 'I' then 0 else c.len

/-- `CigarOp::query_delta`: `=`/`X`/`I` advance the query by `len`
(negated on the reverse strand), `D` does not. -/
def CigarOp.query_delta (c : CigarOp) (strand : Strand) : Int :=
  if c.op = 'D' then 0
  else if strand = Strand.Forward then c.len else -c.len

/-- Cursor state of the projection walk in
`project_target_range_through_alignment`: the two positions, the two
optional projected endpoints, and whether the `break` was taken. -/
structure ProjState where
  target_pos : Int
  query_pos : Int
  projected_start : Option Int
  projected_end : Option Int
  broke : Bool
deriving DecidableEq, Repr

/-- One iteration of the `for cigar_op in cigar_ops` loop body, including
the early `break` (modelled by freezing the state once `broke` is set). -/
def projStep (target_range : Int × Int) (strand : Strand) (st : ProjState)
    (c : CigarOp) : ProjState :=
  if st.broke then st
  else if target_range.2 < st.target_pos then { st with broke := true }
  else
    let td := c.target_delta
    let qd := c.query_delta strand
    if td = 0 then
      -- Insertion in query
      let st1 :=
        if target_range.1 ≤ st.target_pos ∧ st.target_pos ≤ target_range.2 then
          { st with
            projected_start := some (st.projected_start.getD st.query_pos),
            projected_end :=
              some (st.query_pos + if st.target_pos ≤ target_range.2 then 0 else qd) }
        else st
      { st1 with query_pos := st1.query_pos + qd }
    else if qd = 0 then
      -- Deletion in target
      let overlap_start := max st.target_pos target_range.1
      let overlap_end := min (st.target_pos + td) target_range.2
      let st1 :=
        if overlap_start < overlap_end then
          { st with
            projected_start := some (st.projected_start.getD st.query_pos),
            projected_end := some st.query_pos }
        else st
      { st1 with target_pos := st1.target_pos + td }
    else
      -- Match or mismatch
      let overlap_start := max st.target_pos target_range.1
      let overlap_end := min (st.target_pos + td) target_range.2
      let st1 :=
        if overlap_start < overlap_end then
          let overlap_length := overlap_end - overlap_start
          let dir : Int := if strand = Strand.Forward then 1 else -1
          let query_overlap_start := st.query_pos + (overlap_start - st.target_pos) * dir
          let query_overlap_end := query_overlap_start + overlap_length * dir
          { st with
            projected_start := some (st.projected_start.getD query_overlap_start),
            projected_end := some query_overlap_end }
        else st
      { st1 with target_pos := st1.target_pos + td, query_pos := st1.query_pos + qd }

/-- Initial cursor state: target at `target_start`, query at `query_start`
for forward or `query_end` for reverse. -/
def projInit (target_start query_start query_end : Int) (strand : Strand) : ProjState :=
  ⟨target_start, if strand = Strand.Forward then query_start else query_end,
   none, none, false⟩

/-- Post-processing after the walk: swap the endpoints on reverse strand,
then default the start to `query_start` and the end to the final
`query_pos`. -/
def projFinish (query_start : Int) (strand : Strand) (st : ProjState) : Int × Int :=
  let pr := if strand = Strand.Reverse
    then (st.projected_end, st.projected_start)
    else (st.projected_start, st.projected_end)
  (pr.1.getD query_start, pr.2.getD st.query_pos)

/-- `project_target_range_through_alignment`, as a fold of `projStep` over
the op list followed by `projFinish`. -/
def project_target_range_through_alignment (target_range : Int × Int)
    (record : Int × Int × Int × Int × Strand) (cigar_ops : List CigarOp) : Int × Int :=
  match record with
  | (target_start, _target_end, query_start, query_end, strand) =>
    projFinish query_start strand
      (cigar_ops.foldl (projStep target_range strand)
        (projInit target_start query_start query_end strand))

/-- Per-alignment payload.  `cigar_ops` stands for the XZ-compressed
bincode blob `compressed_cigar_ops` together with `get_cigar_ops`: the
codec (external xz2/bincode crates) is a deterministic lossless
round-trip per spec 4.2, so the payload is modelled by the op list it
encodes. -/
structure QueryMetadata where
  query_id : Nat
  cigar_ops : List CigarOp
  target_start : Int
  target_end : Int
  query_start : Int
  query_end : Int
  strand : Strand
deriving DecidableEq, Repr

/-- `coitrees::Interval`: a pair of i32 endpoints plus a payload. -/
structure Interval (T : Type) where
  first : Int
  last : Int
  metadata : T
deriving DecidableEq, Repr

/-- Query result type: `Interval<u32>` with the sequence id as payload. -/
abbrev QueryInterval := Interval Nat

/-- Modelled from the spec: `BasicCOITree` (external coitrees crate) per
spec 4.4 — a static collection of intervals whose `query(s, e, visit)`
visits exactly the stored intervals `I` with `I.first ≤ e ∧ I.last ≥ s`.
The tree is modelled as the list of its intervals and the stab as a
filter. -/
def stabQuery (tree : List (Interval QueryMetadata)) (s e : Int) :
    List (Interval QueryMetadata) :=
  tree.filter (fun iv => decide (iv.first ≤ e) && decide (s ≤ iv.last))

/-- The Impg index: per-target trees plus the sequence index.  The
`HashMap<u32, BasicCOITree>` is modelled as an association list with
unique keys looked up by `find?`; `SequenceIndex` (external, only cloned
by the code under study) as a name-to-id association list. -/
structure Impg where
  trees : List (Nat × List (Interval QueryMetadata))
  seq_index : List (String × Nat)
deriving DecidableEq, Repr

/-- `self.trees.get(&target_id)`. -/
def Impg.lookupTree (impg : Impg) (target_id : Nat) :
    Option (List (Interval QueryMetadata)) :=
  (impg.trees.find? (fun p => decide (p.1 = target_id))).map Prod.snd

/-- Projection of one stab hit into a `QueryInterval`, shared by `query`
and `query_transitive`. -/
def projectHit (range_start range_end : Int) (iv : Interval QueryMetadata) :
    QueryInterval :=
  let md := iv.metadata
  let pr := project_target_range_through_alignment (range_start, range_end)
    (md.target_start, md.target_end, md.query_start, md.query_end, md.strand)
    md.cigar_ops
  ⟨pr.1, pr.2, md.query_id⟩

/-- `Impg::query`: the identity interval first, then one projected
interval per stab hit. -/
def Impg.query (impg : Impg) (target_id : Nat) (range_start range_end : Int) :
    List QueryInterval :=
  let results : List QueryInterval := [⟨range_start, range_end, target_id⟩]
  match impg.lookupTree target_id with
  | none => results
  | some tree => results ++ (stabQuery tree range_start range_end).map
      (projectHit range_start range_end)

/-- Mutable state of the `query_transitive` worklist loop: the stack of
pending `(id, start, end)` triples, the visited set (a HashSet, modelled
as a duplicate-free-by-construction list), and the results accumulated so
far. -/
structure TransState where
  stack : List (Nat × Int × Int)
  visited : List (Nat × Int × Int)
  results : List QueryInterval
deriving DecidableEq, Repr

/-- Body of the stab closure in `query_transitive`, folded over the hits
of one popped triple: push the projected interval onto the results and,
when the hit leads to a different sequence, run the
`if !visited.insert(todo_range) { stack.push(todo_range) }` logic —
an already-present triple is pushed, a new triple is only inserted. -/
def transStep (current_target : Nat) (current_start current_end : Int)
    (st : TransState) (iv : Interval QueryMetadata) : TransState :=
  let qi := projectHit current_start current_end iv
  let st1 := { st with results := st.results ++ [qi] }
  if iv.metadata.query_id ≠ current_target then
    let todo : Nat × Int × Int := (iv.metadata.query_id, qi.first, qi.last)
    if todo ∈ st1.visited then
      { st1 with stack := todo :: st1.stack }
    else
      { st1 with visited := todo :: st1.visited }
  else st1

/-- The stab closure folded over all hits of one popped triple. -/
def processHits (current_target : Nat) (current_start current_end : Int)
    (hits : List (Interval QueryMetadata)) (st : TransState) : TransState :=
  hits.foldl (transStep current_target current_start current_end) st

/-- The `while let Some(..) = stack.pop()` loop of `query_transitive`,
with fuel counting loop iterations; `none` means the loop was still
running when the fuel ran out. -/
def transLoop (impg : Impg) : Nat → TransState → Option (List QueryInterval)
  | _, ⟨[], _, results⟩ => some results
  | 0, _ => none
  | fuel + 1, ⟨(ct, cs, ce) :: rest, visited, results⟩ =>
    let st0 : TransState := ⟨rest, visited, results⟩
    let st1 := match Impg.lookupTree impg ct with
      | some tree => processHits ct cs ce (stabQuery tree cs ce) st0
      | none => st0
    transLoop impg fuel st1

/-- `Impg::query_transitive`: identity interval first, worklist seeded
with the input triple, empty visited set. -/
def Impg.query_transitive (impg : Impg) (target_id : Nat)
    (range_start range_end : Int) (fuel : Nat) : Option (List QueryInterval) :=
  transLoop impg fuel
    ⟨[(target_id, range_start, range_end)], [],
     [⟨range_start, range_end, target_id⟩]⟩

/-- `SerializableInterval`: endpoints plus the metadata payload. -/
structure SerializableInterval where
  first : Int
  last : Int
  metadata : QueryMetadata
deriving DecidableEq, Repr

/-- `Impg::to_serializable`: dump every tree as its interval list, clone
the sequence index. -/
def Impg.to_serializable (impg : Impg) :
    List (Nat × List SerializableInterval) × List (String × Nat) :=
  (impg.trees.map (fun p =>
    (p.1, p.2.map (fun iv =>
      ({ first := iv.first, last := iv.last, metadata := iv.metadata }
        : SerializableInterval)))),
   impg.seq_index)

/-- `Impg::from_serializable`: rebuild each tree from its interval
list. -/
def Impg.from_serializable
    (s : List (Nat × List SerializableInterval) × List (String × Nat)) : Impg :=
  ⟨s.1.map (fun p =>
    (p.1, p.2.map (fun iv =>
      ({ first := iv.first, last := iv.last, metadata := iv.metadata }
        : Interval QueryMetadata)))),
   s.2⟩

/-- `num_buf` evaluation, as in `num_buf.parse::<i32>()` on a buffer that
only ever holds ASCII digits: fails on an empty buffer or on overflow
past `i32::MAX`. -/
def digitsToNat (buf : List Char) : Nat :=
  buf.foldl (fun a c => a * 10 + (c.toNat - 48)) 0

/-- `num_buf.parse::<i32>().map_err(|_| ParseErr::InvalidCigarFormat)`. -/
def parseNumBuf (buf : List Char) : Except ParseErr Int :=
  if buf = [] then .error ParseErr.InvalidCigarFormat
  else if digitsToNat buf ≤ 2147483647 then .ok (Int.ofNat (digitsToNat buf))
  else .error ParseErr.InvalidCigarFormat

/-- The character loop of `parse_cigar_to_delta`: digits accumulate in
`num_buf`; any other character flushes the buffer through
`parse::<i32>` and `CigarOp::new`, both errors mapped to
`InvalidCigarFormat`.  At end of input the remaining buffer is dropped
and the ops collected so far are returned. -/
def parseCigarChars : List Char → List Char → List CigarOp →
    Except ParseErr (List CigarOp)
  | [], _, acc => .ok acc
  | c :: rest, num_buf, acc =>
    if c.isDigit then parseCigarChars rest (num_buf ++ [c]) acc
    else
      match parseNumBuf num_buf with
      | .error e => .error e
      | .ok len =>
        match CigarOp.new len c with
        | .error _ => .error ParseErr.InvalidCigarFormat
        | .ok op => parseCigarChars rest [] (acc ++ [op])

/-- `parse_cigar_to_delta` on the character sequence of the input
string. -/
def parse_cigar_to_delta (cigar : List Char) : Except ParseErr (List CigarOp) :=
  parseCigarChars cigar [] []

-- Regression checks: the literal scenarios of the Rust test module,
-- evaluated on the embedding.

example :
    project_target_range_through_alignment (100, 200)
      (100, 200, 0, 100, Strand.Forward) [⟨100⟩] = (0, 100) := by decide

example :
    project_target_range_through_alignment (100, 200)
      (100, 200, 0, 100, Strand.Reverse) [⟨100⟩] = (0, 100) := by decide

-- CIGAR [=10, I5, D5, =50, I50, =35] against record (0, 100, 50, 200, +).
def mixedOps : List CigarOp :=
  [⟨10⟩, ⟨2147483653⟩, ⟨3221225477⟩, ⟨50⟩, ⟨2147483698⟩, ⟨35⟩]

example : mixedOps.map CigarOp.op = ['=', 'I', 'D', '=', 'I', '='] := by decide
example : mixedOps.map CigarOp.len = [10, 5, 5, 50, 50, 35] := by decide

example :
    project_target_range_through_alignment (0, 100)
      (0, 100, 50, 200, Strand.Forward) mixedOps = (50, 200) := by decide
example :
    project_target_range_through_alignment (50, 55)
      (0, 100, 50, 200, Strand.Forward) mixedOps = (100, 105) := by decide
example :
    project_target_range_through_alignment (50, 64)
      (0, 100, 50, 200, Strand.Forward) mixedOps = (100, 114) := by decide
example :
    project_target_range_through_alignment (65, 65)
      (0, 100, 50, 200, Strand.Forward) mixedOps = (115, 115) := by decide
example :
    project_target_range_through_alignment (50, 65)
      (0, 100, 50, 200, Strand.Forward) mixedOps = (100, 115) := by decide
example :
    project_target_range_through_alignment (50, 66)
      (0, 100, 50, 200, Strand.Forward) mixedOps = (100, 166) := by decide
example :
    project_target_range_through_alignment (70, 95)
      (0, 100, 50, 200, Strand.Forward) mixedOps = (170, 195) := by decide

-- Reverse with mixed operations: CIGAR [=50, D10, I10, =40].
example :
    project_target_range_through_alignment (150, 250)
      (100, 200, 200, 300, Strand.Reverse)
      [⟨50⟩, ⟨3221225482⟩, ⟨2147483658⟩, ⟨40⟩] = (200, 250) := by decide

-- Forward with insertion: CIGAR [=50, I10, =50].
example :
    project_target_range_through_alignment (50, 150)
      (50, 150, 50, 160, Strand.Forward)
      [⟨50⟩, ⟨2147483658⟩, ⟨50⟩] = (50, 160) := by decide

-- Forward with deletion: CIGAR [=50, D10, =40].
example :
    project_target_range_through_alignment (50, 150)
      (50, 150, 50, 140, Strand.Forward)
      [⟨50⟩, ⟨3221225482⟩, ⟨40⟩] = (50, 140) := by decide

-- Edge case: CIGAR [=10, D20, =8, X1, =1, I10, =10] on (0, 50, 0, 40, +).
example :
    project_target_range_through_alignment (0, 10)
      (0, 50, 0, 40, Strand.Forward)
      [⟨10⟩, ⟨3221225492⟩, ⟨8⟩, ⟨1073741825⟩, ⟨1⟩, ⟨2147483658⟩, ⟨10⟩]
      = (0, 10) := by decide

-- Parsing: "10=5I5D" and the invalid "10=5Q".
example :
    parse_cigar_to_delta "10=5I5D".toList
      = .ok [⟨10⟩, ⟨2147483653⟩, ⟨3221225477⟩] := by decide
example :
    parse_cigar_to_delta "10=5Q".toList = .error ParseErr.InvalidCigarFormat := by
  decide

/-! Basic facts about a packed op's deltas. -/

/-- Unsigned lengths: the low 30 bits are non-negative as an `i32`. -/
theorem CigarOp.len_nonneg (c : CigarOp) : 0 ≤ c.len :=
  Int.ofNat_nonneg _

/-- The opcode accessor only ever produces one of the four letters. -/
theorem CigarOp.op_cases (c : CigarOp) :
    c.op = '=' ∨ c.op = 'X' ∨ c.op = 'I' ∨ c.op = 'D' := by
  unfold CigarOp.op
  split_ifs <;> simp

theorem CigarOp.target_delta_nonneg (c : CigarOp) : 0 ≤ c.target_delta := by
  unfold CigarOp.target_delta
  split_ifs <;> simp [CigarOp.len_nonneg]

/-- The per-op query movement, `len` counted positively: `0` for a
deletion, `len` otherwise. -/
def queryAbs (c : CigarOp) : Int :=
  if c.op = 'D' then 0 else c.len

theorem queryAbs_nonneg (c : CigarOp) : 0 ≤ queryAbs c := by
  unfold queryAbs
  split_ifs <;> simp [CigarOp.len_nonneg]

theorem CigarOp.query_delta_eq (c : CigarOp) (strand : Strand) :
    c.query_delta strand =
      (if strand = Strand.Forward then 1 else -1) * queryAbs c := by
  unfold CigarOp.query_delta queryAbs
  split_ifs <;> simp

/-- In the match/mismatch branch (both deltas non-zero) the query delta is
the signed target delta. -/
theorem CigarOp.match_deltas (c : CigarOp) (strand : Strand)
    (htd : c.target_delta ≠ 0) (hqd : c.query_delta strand ≠ 0) :
    c.query_delta strand =
      (if strand = Strand.Forward then 1 else -1) * c.target_delta := by
  rcases CigarOp.op_cases c with h | h | h | h <;>
    simp_all [CigarOp.target_delta, CigarOp.query_delta]

theorem CigarOp.query_delta_zero_of_len_zero (c : CigarOp) (strand : Strand)
    (h : c.len = 0) : c.query_delta strand = 0 := by
  unfold CigarOp.query_delta
  split_ifs <;> simp [h]

theorem CigarOp.target_delta_zero_of_len_zero (c : CigarOp) (h : c.len = 0) :
    c.target_delta = 0 := by
  unfold CigarOp.target_delta
  split_ifs <;> simp [h]

/-- Sum of target deltas over an op list. -/
def targetSum (l : List CigarOp) : Int :=
  (l.map CigarOp.target_delta).sum

/-- Sum of absolute query deltas over an op list. -/
def queryAbsSum (l : List CigarOp) : Int :=
  (l.map queryAbs).sum

theorem targetSum_nil : targetSum [] = 0 := rfl

theorem targetSum_cons (c : CigarOp) (l : List CigarOp) :
    targetSum (c :: l) = c.target_delta + targetSum l := by
  simp [targetSum]

theorem queryAbsSum_cons (c : CigarOp) (l : List CigarOp) :
    queryAbsSum (c :: l) = queryAbs c + queryAbsSum l := by
  simp [queryAbsSum]

/-! Branch equations for one step of the projection walk. -/

theorem projStep_of_broke (tr : Int × Int) (strand : Strand) (st : ProjState)
    (c : CigarOp) (h : st.broke = true) : projStep tr strand st c = st := by
  simp [projStep, h]

theorem projStep_of_break (tr : Int × Int) (strand : Strand) (st : ProjState)
    (c : CigarOp) (hb : st.broke = false) (h : tr.2 < st.target_pos) :
    projStep tr strand st c = { st with broke := true } := by
  simp [projStep, hb, h]

theorem projStep_ins_in (tr : Int × Int) (strand : Strand) (st : ProjState)
    (c : CigarOp) (hb : st.broke = false) (hle : ¬ tr.2 < st.target_pos)
    (htd : c.target_delta = 0) (hg : tr.1 ≤ st.target_pos) :
    projStep tr strand st c =
      { st with
        projected_start := some (st.projected_start.getD st.query_pos),
        projected_end := some st.query_pos,
        query_pos := st.query_pos + c.query_delta strand } := by
  simp [projStep, hb, hle, htd, hg, not_lt.mp hle]

theorem projStep_ins_out (tr : Int × Int) (strand : Strand) (st : ProjState)
    (c : CigarOp) (hb : st.broke = false) (hle : ¬ tr.2 < st.target_pos)
    (htd : c.target_delta = 0) (hg : ¬ tr.1 ≤ st.target_pos) :
    projStep tr strand st c =
      { st with query_pos := st.query_pos + c.query_delta strand } := by
  simp [projStep, hb, hle, htd, hg]

theorem projStep_del_ov (tr : Int × Int) (strand : Strand) (st : ProjState)
    (c : CigarOp) (hb : st.broke = false) (hle : ¬ tr.2 < st.target_pos)
    (htd : c.target_delta ≠ 0) (hqd : c.query_delta strand = 0)
    (hov : max st.target_pos tr.1 < min (st.target_pos + c.target_delta) tr.2) :
    projStep tr strand st c =
      { st with
        projected_start := some (st.projected_start.getD st.query_pos),
        projected_end := some st.query_pos,
        target_pos := st.target_pos + c.target_delta } := by
  simp [projStep, hb, hle, htd, hqd, hov]

theorem projStep_del_no (tr : Int × Int) (strand : Strand) (st : ProjState)
    (c : CigarOp) (hb : st.broke = false) (hle : ¬ tr.2 < st.target_pos)
    (htd : c.target_delta ≠ 0) (hqd : c.query_delta strand = 0)
    (hov : ¬ max st.target_pos tr.1 < min (st.target_pos + c.target_delta) tr.2) :
    projStep tr strand st c =
      { st with target_pos := st.target_pos + c.target_delta } := by
  simp [projStep, hb, hle, htd, hqd, hov]

theorem projStep_match_ov (tr : Int × Int) (strand : Strand) (st : ProjState)
    (c : CigarOp) (hb : st.broke = false) (hle : ¬ tr.2 < st.target_pos)
    (htd : c.target_delta ≠ 0) (hqd : c.query_delta strand ≠ 0)
    (hov : max st.target_pos tr.1 < min (st.target_pos + c.target_delta) tr.2) :
    projStep tr strand st c =
      { st with
        projected_start := some (st.projected_start.getD
          (st.query_pos + (max st.target_pos tr.1 - st.target_pos) *
            (if strand = Strand.Forward then 1 else -1))),
        projected_end := some
          (st.query_pos + (max st.target_pos tr.1 - st.target_pos) *
              (if strand = Strand.Forward then 1 else -1) +
            (min (st.target_pos + c.target_delta) tr.2 - max st.target_pos tr.1) *
              (if strand = Strand.Forward then 1 else -1)),
        target_pos := st.target_pos + c.target_delta,
        query_pos := st.query_pos + c.query_delta strand } := by
  simp [projStep, hb, hle, htd, hqd, hov]

theorem projStep_match_no (tr : Int × Int) (strand : Strand) (st : ProjState)
    (c : CigarOp) (hb : st.broke = false) (hle : ¬ tr.2 < st.target_pos)
    (htd : c.target_delta ≠ 0) (hqd : c.query_delta strand ≠ 0)
    (hov : ¬ max st.target_pos tr.1 < min (st.target_pos + c.target_delta) tr.2) :
    projStep tr strand st c =
      { st with
        target_pos := st.target_pos + c.target_delta,
        query_pos := st.query_pos + c.query_delta strand } := by
  simp [projStep, hb, hle, htd, hqd, hov]

/-! The walk never resumes after the break. -/

theorem projStep_broke_mono (tr : Int × Int) (strand : Strand) (st : ProjState)
    (c : CigarOp) (h : st.broke = true) :
    (projStep tr strand st c).broke = true := by
  rw [projStep_of_broke tr strand st c h]; exact h

theorem foldl_projStep_of_broke (tr : Int × Int) (strand : Strand)
    (l : List CigarOp) (st : ProjState) (h : st.broke = true) :
    l.foldl (projStep tr strand) st = st := by
  induction l with
  | nil => rfl
  | cons c t ih => simp [List.foldl_cons, projStep_of_broke tr strand st c h, ih]

/-- If a step leaves the walk running, the target cursor advanced by
exactly the op's target delta (and the walk was running before). -/
theorem projStep_tp (tr : Int × Int) (strand : Strand) (st : ProjState)
    (c : CigarOp) (h : (projStep tr strand st c).broke = false) :
    (projStep tr strand st c).target_pos = st.target_pos + c.target_delta ∧
      st.broke = false := by
  by_cases hb : st.broke = true
  · rw [projStep_of_broke tr strand st c hb] at h
    rw [h] at hb; cases hb
  · rw [Bool.not_eq_true] at hb
    refine ⟨?_, hb⟩
    by_cases hbr : tr.2 < st.target_pos
    · rw [projStep_of_break tr strand st c hb hbr] at h
      simp at h
    · by_cases htd : c.target_delta = 0
      · by_cases hg : tr.1 ≤ st.target_pos
        · rw [projStep_ins_in tr strand st c hb hbr htd hg, htd]; simp
        · rw [projStep_ins_out tr strand st c hb hbr htd hg, htd]; simp
      · by_cases hqd : c.query_delta strand = 0
        · by_cases hov : max st.target_pos tr.1 <
              min (st.target_pos + c.target_delta) tr.2
          · rw [projStep_del_ov tr strand st c hb hbr htd hqd hov]
          · rw [projStep_del_no tr strand st c hb hbr htd hqd hov]
        · by_cases hov : max st.target_pos tr.1 <
              min (st.target_pos + c.target_delta) tr.2
          · rw [projStep_match_ov tr strand st c hb hbr htd hqd hov]
          · rw [projStep_match_no tr strand st c hb hbr htd hqd hov]

/-- A finished, unbroken walk advanced the target cursor by the total
target delta of the op list. -/
theorem foldl_projStep_tp (tr : Int × Int) (strand : Strand) :
    ∀ (l : List CigarOp) (st : ProjState),
      (l.foldl (projStep tr strand) st).broke = false →
      (l.foldl (projStep tr strand) st).target_pos = st.target_pos + targetSum l := by
  intro l
  induction l with
  | nil => intro st _; simp [targetSum]
  | cons c t ih =>
    intro st h
    rw [List.foldl_cons] at h ⊢
    by_cases h1 : (projStep tr strand st c).broke = true
    · rw [foldl_projStep_of_broke tr strand t _ h1] at h
      rw [h] at h1; cases h1
    · rw [Bool.not_eq_true] at h1
      obtain ⟨hadv, _⟩ := projStep_tp tr strand st c h1
      rw [ih _ h, hadv, targetSum_cons]
      ring

/-! Equation lemmas for the worklist loop. -/

theorem transLoop_nil (impg : Impg) (fuel : Nat) (v : List (Nat × Int × Int))
    (r : List QueryInterval) : transLoop impg fuel ⟨[], v, r⟩ = some r := by
  cases fuel <;> rfl

theorem transLoop_zero (impg : Impg) (ct : Nat) (cs ce : Int)
    (tl : List (Nat × Int × Int)) (v : List (Nat × Int × Int))
    (r : List QueryInterval) :
    transLoop impg 0 ⟨(ct, cs, ce) :: tl, v, r⟩ = none := rfl

theorem transLoop_succ (impg : Impg) (n : Nat) (ct : Nat) (cs ce : Int)
    (tl : List (Nat × Int × Int)) (v : List (Nat × Int × Int))
    (r : List QueryInterval) :
    transLoop impg (n + 1) ⟨(ct, cs, ce) :: tl, v, r⟩ =
      transLoop impg n
        (match Impg.lookupTree impg ct with
         | some tree => processHits ct cs ce (stabQuery tree cs ce) ⟨tl, v, r⟩
         | none => ⟨tl, v, r⟩) := rfl

/-- One closure invocation appends exactly the projected interval to the
results. -/
theorem transStep_results (ct : Nat) (cs ce : Int) (st : TransState)
    (iv : Interval QueryMetadata) :
    (transStep ct cs ce st iv).results =
      st.results ++ [projectHit cs ce iv] := by
  simp only [transStep]
  split_ifs <;> rfl

/-- Processing any hit list only ever appends to the results. -/
theorem processHits_results (ct : Nat) (cs ce : Int) :
    ∀ (hits : List (Interval QueryMetadata)) (st : TransState),
      ∃ l, (processHits ct cs ce hits st).results = st.results ++ l := by
  intro hits
  induction hits with
  | nil => exact fun st => ⟨[], by simp [processHits]⟩
  | cons h t ih =>
    intro st
    obtain ⟨l, hl⟩ := ih (transStep ct cs ce st h)
    refine ⟨projectHit cs ce h :: l, ?_⟩
    show (processHits ct cs ce t (transStep ct cs ce st h)).results = _
    rw [hl, transStep_results]
    simp

/-- Whatever the loop returns extends the results it started from. -/
theorem transLoop_results (impg : Impg) :
    ∀ (fuel : Nat) (st : TransState) (res : List QueryInterval),
      transLoop impg fuel st = some res → ∃ l, res = st.results ++ l := by
  intro fuel
  induction fuel with
  | zero =>
    rintro ⟨stack, v, results⟩ res h
    cases stack with
    | nil =>
      rw [transLoop_nil] at h
      injection h with h2
      exact ⟨[], by rw [h2]; simp⟩
    | cons hd tl =>
      obtain ⟨ct, cs, ce⟩ := hd
      rw [transLoop_zero] at h
      cases h
  | succ n ih =>
    rintro ⟨stack, v, results⟩ res h
    cases stack with
    | nil =>
      rw [transLoop_nil] at h
      injection h with h2
      exact ⟨[], by rw [h2]; simp⟩
    | cons hd tl =>
      obtain ⟨ct, cs, ce⟩ := hd
      rw [transLoop_succ] at h
      cases htree : Impg.lookupTree impg ct with
      | none =>
        rw [htree] at h
        obtain ⟨l, hl⟩ := ih _ res h
        exact ⟨l, hl⟩
      | some tree =>
        rw [htree] at h
        obtain ⟨l1, hl1⟩ :=
          processHits_results ct cs ce (stabQuery tree cs ce) ⟨tl, v, results⟩
        obtain ⟨l2, hl2⟩ := ih _ res h
        exact ⟨l1 ++ l2, by rw [hl2, hl1]; simp⟩

/-- C10: both `query` and `query_transitive` put the identity interval
`(s, e, target_id)` first, whether or not a tree exists for the target;
for `query_transitive` this is stated for every run of the worklist loop
that finishes (the fuel-indexed loop returned a result). -/
theorem query_and_query_transitive_head_identity (impg : Impg) (t : Nat)
    (s e : Int) (fuel : Nat) (res : List QueryInterval)
    (h : Impg.query_transitive impg t s e fuel = some res) :
    (Impg.query impg t s e).head? = some ⟨s, e, t⟩ ∧
      res.head? = some ⟨s, e, t⟩ := by
  constructor
  · unfold Impg.query
    cases himp : impg.lookupTree t <;> simp
  · unfold Impg.query_transitive at h
    obtain ⟨l, hl⟩ := transLoop_results impg fuel _ res h
    rw [hl]
    simp

theorem query_and_query_transitive_head_identity_witness :
    (Impg.query ⟨[], []⟩ 0 0 1).head? = some ⟨0, 1, 0⟩ ∧
      ([⟨0, 1, 0⟩] : List QueryInterval).head? = some ⟨0, 1, 0⟩ :=
  query_and_query_transitive_head_identity ⟨[], []⟩ 0 0 1 1 [⟨0, 1, 0⟩] rfl

/-! Snapshot round-trip. -/

theorem inner_roundtrip :
    ∀ (l : List (Interval QueryMetadata)),
      (l.map (fun iv =>
        ({ first := iv.first, last := iv.last, metadata := iv.metadata }
          : SerializableInterval))).map
        (fun iv =>
          ({ first := iv.first, last := iv.last, metadata := iv.metadata }
            : Interval QueryMetadata)) = l := by
  intro l
  induction l with
  | nil => rfl
  | cons a t ih =>
    simp only [List.map_cons]
    rw [ih]

theorem from_to_serializable (impg : Impg) :
    Impg.from_serializable (Impg.to_serializable impg) = impg := by
  cases impg with
  | mk trees si =>
    unfold Impg.to_serializable Impg.from_serializable
    simp only [Impg.mk.injEq, and_true]
    induction trees with
    | nil => rfl
    | cons p t ih =>
      simp only [List.map_cons] at ih ⊢
      rw [List.cons.injEq]
      refine ⟨?_, ih⟩
      rw [Prod.ext_iff]
      exact ⟨rfl, inner_roundtrip p.2⟩

/-- C8: rebuilding an Impg from its serializable snapshot preserves the
multiset of results of every `query(t, s, e)`. -/
theorem roundtrip_preserves_query_multisets (impg : Impg) (t : Nat) (s e : Int) :
    ((Impg.query (Impg.from_serializable (Impg.to_serializable impg)) t s e
        : List QueryInterval) : Multiset QueryInterval) =
      ((Impg.query impg t s e : List QueryInterval) : Multiset QueryInterval) := by
  rw [from_to_serializable]

/-! CigarOp construction. -/

/-- C5 (code bug): `CigarOp::new` performs no length check.  A length of
2^30 (too wide for 30 bits) is accepted, and the stray bit silently
corrupts the packed value: the stored op reads back as 'X' with length 0.
A negative length is accepted too and reads back as a 'D'. -/
theorem cigarOp_new_accepts_out_of_range_len :
    CigarOp.new 1073741824 '=' = .ok ⟨1073741824⟩ ∧
      CigarOp.op ⟨1073741824⟩ = 'X' ∧
      CigarOp.len ⟨1073741824⟩ = 0 ∧
      CigarOp.new (-1) '=' = .ok ⟨4294967295⟩ ∧
      CigarOp.op ⟨4294967295⟩ = 'D' := by
  decide

/-! The insertion branch of the projection. -/

/-- C9: when the insertion branch runs with the target cursor inside
`[target_range.1, target_range.2]`, the inner comparison
`target_pos <= target_range.1` always holds under the enclosing guard, so
the alternative adding `query_delta` is dead and `projected_end` is set to
exactly the current `query_pos`. -/
theorem insertion_step_sets_projected_end (tr : Int × Int) (strand : Strand)
    (st : ProjState) (c : CigarOp) (hb : st.broke = false)
    (htd : c.target_delta = 0) (hg0 : tr.1 ≤ st.target_pos)
    (hg1 : st.target_pos ≤ tr.2) :
    (projStep tr strand st c).projected_end = some st.query_pos := by
  rw [projStep_ins_in tr strand st c hb (not_lt.mpr hg1) htd hg0]

theorem insertion_step_sets_projected_end_witness :
    (projStep (0, 10) Strand.Forward ⟨5, 7, none, none, false⟩
      ⟨2147483651⟩).projected_end = some 7 :=
  insertion_step_sets_projected_end (0, 10) Strand.Forward
    ⟨5, 7, none, none, false⟩ ⟨2147483651⟩ rfl (by decide) (by decide) (by decide)

/-! Transitive traversal: concrete runs showing the inverted visited/push
logic. -/

/-- Alignment on sequence 0 whose query side is sequence 1. -/
def mdToB : QueryMetadata := ⟨1, [⟨10⟩], 0, 10, 0, 10, Strand.Forward⟩

/-- Alignment on sequence 1 whose query side is sequence 2. -/
def mdToC : QueryMetadata := ⟨2, [⟨10⟩], 0, 10, 0, 10, Strand.Forward⟩

def ivToB : Interval QueryMetadata := ⟨0, 10, mdToB⟩

def ivToC : Interval QueryMetadata := ⟨0, 10, mdToC⟩

/-- Two-hop chain: sequence 0 aligns to 1, sequence 1 aligns to 2. -/
def impgChain : Impg := ⟨[(0, [ivToB]), (1, [ivToC])], []⟩

/-- C1 (code bug): on a first observation the triple is inserted into the
visited set but NOT pushed (the code pushes only when `insert` returns
false, i.e. when the triple was already visited).  On the two-hop chain
the traversal therefore never descends: `(1, 0, 10)` ends up visited with
an empty stack, and the final result lacks any interval on sequence 2
even with plenty of fuel. -/
theorem query_transitive_first_observation_not_pushed :
    Impg.query_transitive impgChain 0 0 10 10 =
        some [⟨0, 10, 0⟩, ⟨0, 10, 1⟩] ∧
      (processHits 0 0 10 [ivToB] ⟨[], [], []⟩).visited = [(1, 0, 10)] ∧
      (processHits 0 0 10 [ivToB] ⟨[], [], []⟩).stack = [] := by
  decide

/-! Counterexample evaluations for the projection and parsing claims. -/

/-- C3 (counterexample): with an all-`=` CIGAR and a forward-strand
record, `project` does not return the target range itself — it returns
the range translated into query coordinates — and a degenerate range
`(s, s)` inside the record yields the no-overlap default, not `(s, s)`. -/
theorem project_eq_ops_forward_not_identity :
    project_target_range_through_alignment (150, 180)
        (100, 200, 0, 100, Strand.Forward) [⟨100⟩] = (50, 80) ∧
      ((50, 80) : Int × Int) ≠ (150, 180) ∧
      project_target_range_through_alignment (50, 50)
        (0, 100, 0, 100, Strand.Forward) [⟨100⟩] = (0, 100) := by
  decide

/-- C4 (counterexample): inserting the zero-length op `=0` (an op with
`len = 0`) between `I3` and the final `=5` of `[=5, I3, =5]` changes the
projection of range `(0, 5)` through record `(0, 10, 0, 13, Forward)`
from `(0, 5)` to `(0, 8)`: the zero-length op falls into the insertion
branch and rewrites `projected_end` with the advanced query cursor. -/
theorem project_zero_op_changes_result :
    project_target_range_through_alignment (0, 5)
        (0, 10, 0, 13, Strand.Forward)
        [⟨5⟩, ⟨2147483651⟩, ⟨0⟩, ⟨5⟩] = (0, 8) ∧
      project_target_range_through_alignment (0, 5)
        (0, 10, 0, 13, Strand.Forward)
        [⟨5⟩, ⟨2147483651⟩, ⟨5⟩] = (0, 5) ∧
      CigarOp.len ⟨0⟩ = 0 ∧ CigarOp.op ⟨0⟩ = '=' := by
  decide

/-- C6 (counterexample): an input ending in an unterminated digit run is
not rejected — the trailing digits are silently dropped and the ops
parsed so far are returned. -/
theorem parse_trailing_digits_not_rejected :
    parse_cigar_to_delta ['1', '0', '=', '5'] = .ok [⟨10⟩] ∧
      parse_cigar_to_delta ['1', '0', '=', '5'] ≠
        .error ParseErr.InvalidCigarFormat := by
  decide

/-! A two-cycle on which the worklist never empties. -/

/-- Alignment on sequence 1 whose query side is sequence 0. -/
def mdToA : QueryMetadata := ⟨0, [⟨10⟩], 0, 10, 0, 10, Strand.Forward⟩

def ivToA : Interval QueryMetadata := ⟨0, 10, mdToA⟩

/-- Sequences 0 and 1 aligned to each other, each alignment indexed
twice (two identical PAF records). -/
def impgCycle : Impg := ⟨[(0, [ivToB, ivToB]), (1, [ivToA, ivToA])], []⟩

theorem projectHit_toB : projectHit 0 10 ivToB = ⟨0, 10, 1⟩ := by decide

theorem projectHit_toA : projectHit 0 10 ivToA = ⟨0, 10, 0⟩ := by decide

/-- Once `(1, 0, 10)` is visited, every hit on `ivToB` pushes it again. -/
theorem transStep_cycle_toB (st : TransState)
    (h : ((1 : Nat), (0 : Int), (10 : Int)) ∈ st.visited) :
    transStep 0 0 10 st ivToB =
      { st with stack := (1, 0, 10) :: st.stack,
                results := st.results ++ [⟨0, 10, 1⟩] } := by
  simp only [transStep, projectHit_toB,
    show ivToB.metadata.query_id = 1 from rfl]
  norm_num
  exact h

/-- Once `(0, 0, 10)` is visited, every hit on `ivToA` pushes it again. -/
theorem transStep_cycle_toA (st : TransState)
    (h : ((0 : Nat), (0 : Int), (10 : Int)) ∈ st.visited) :
    transStep 1 0 10 st ivToA =
      { st with stack := (0, 0, 10) :: st.stack,
                results := st.results ++ [⟨0, 10, 0⟩] } := by
  simp only [transStep, projectHit_toA,
    show ivToA.metadata.query_id = 0 from rfl]
  norm_num
  exact h

theorem processHits_cycle_0 (st : TransState)
    (h : ((1 : Nat), (0 : Int), (10 : Int)) ∈ st.visited) :
    processHits 0 0 10 [ivToB, ivToB] st =
      { st with stack := (1, 0, 10) :: (1, 0, 10) :: st.stack,
                results := st.results ++ [⟨0, 10, 1⟩, ⟨0, 10, 1⟩] } := by
  have e2 := transStep_cycle_toB
    ⟨(1, 0, 10) :: st.stack, st.visited, st.results ++ [⟨0, 10, 1⟩]⟩ h
  unfold processHits
  rw [List.foldl_cons, transStep_cycle_toB st h, List.foldl_cons, e2,
    List.foldl_nil]
  simp

theorem processHits_cycle_1 (st : TransState)
    (h : ((0 : Nat), (0 : Int), (10 : Int)) ∈ st.visited) :
    processHits 1 0 10 [ivToA, ivToA] st =
      { st with stack := (0, 0, 10) :: (0, 0, 10) :: st.stack,
                results := st.results ++ [⟨0, 10, 0⟩, ⟨0, 10, 0⟩] } := by
  have e2 := transStep_cycle_toA
    ⟨(0, 0, 10) :: st.stack, st.visited, st.results ++ [⟨0, 10, 0⟩]⟩ h
  unfold processHits
  rw [List.foldl_cons, transStep_cycle_toA st h, List.foldl_cons, e2,
    List.foldl_nil]
  simp

/-- Once both triples of the 2-cycle are visited and the stack holds only
those triples, the loop never finishes: every pop pushes two copies of
the opposite triple. -/
theorem transLoop_cycle_none :
    ∀ (fuel : Nat) (stack vis : List (Nat × Int × Int))
      (acc : List QueryInterval),
      ((0 : Nat), (0 : Int), (10 : Int)) ∈ vis →
      ((1 : Nat), (0 : Int), (10 : Int)) ∈ vis →
      stack ≠ [] →
      (∀ x ∈ stack, x = (0, 0, 10) ∨ x = (1, 0, 10)) →
      transLoop impgCycle fuel ⟨stack, vis, acc⟩ = none := by
  intro fuel
  induction fuel with
  | zero =>
    intro stack vis acc _ _ hne _
    cases stack with
    | nil => exact absurd rfl hne
    | cons hd tl =>
      obtain ⟨ct, cs, ce⟩ := hd
      exact transLoop_zero impgCycle ct cs ce tl vis acc
  | succ n ih =>
    intro stack vis acc h0 h1 hne hall
    cases stack with
    | nil => exact absurd rfl hne
    | cons hd tl =>
      rcases hall hd (List.mem_cons_self hd tl) with rfl | rfl
      · have hstep : transLoop impgCycle (n + 1) ⟨(0, 0, 10) :: tl, vis, acc⟩ =
            transLoop impgCycle n
              (processHits 0 0 10 [ivToB, ivToB] ⟨tl, vis, acc⟩) := rfl
        rw [hstep, processHits_cycle_0 ⟨tl, vis, acc⟩ h1]
        refine ih _ _ _ h0 h1 (by simp) ?_
        intro x hx
        rcases List.mem_cons.mp hx with rfl | hx
        · exact Or.inr rfl
        · rcases List.mem_cons.mp hx with rfl | hx
          · exact Or.inr rfl
          · exact hall x (List.mem_cons_of_mem _ hx)
      · have hstep : transLoop impgCycle (n + 1) ⟨(1, 0, 10) :: tl, vis, acc⟩ =
            transLoop impgCycle n
              (processHits 1 0 10 [ivToA, ivToA] ⟨tl, vis, acc⟩) := rfl
        rw [hstep, processHits_cycle_1 ⟨tl, vis, acc⟩ h0]
        refine ih _ _ _ h0 h1 (by simp) ?_
        intro x hx
        rcases List.mem_cons.mp hx with rfl | hx
        · exact Or.inl rfl
        · rcases List.mem_cons.mp hx with rfl | hx
          · exact Or.inl rfl
          · exact hall x (List.mem_cons_of_mem _ hx)

/-- C2 (code bug): on the 2-cycle index the worklist loop of
`query_transitive` runs forever — for EVERY amount of fuel the
fuel-indexed loop is still running (`none`), i.e. the Rust
`while let Some(..) = stack.pop()` never terminates. -/
theorem query_transitive_cycle_never_terminates :
    ∀ fuel : Nat, Impg.query_transitive impgCycle 0 0 10 fuel = none := by
  intro fuel
  match fuel with
  | 0 => rfl
  | 1 => rfl
  | n + 2 =>
    have hsteps : Impg.query_transitive impgCycle 0 0 10 (n + 2) =
        transLoop impgCycle n
          ⟨[(0, 0, 10)], [(0, 0, 10), (1, 0, 10)],
           [⟨0, 10, 0⟩, ⟨0, 10, 1⟩, ⟨0, 10, 1⟩, ⟨0, 10, 0⟩, ⟨0, 10, 0⟩]⟩ := rfl
    rw [hsteps]
    exact transLoop_cycle_none n _ _ _ (by decide) (by decide) (by simp)
      (by decide)

/-! Amended parser behaviour. -/

theorem parseCigarChars_nil (buf : List Char) (acc : List CigarOp) :
    parseCigarChars [] buf acc = .ok acc := rfl

theorem parseCigarChars_cons (c : Char) (rest buf : List Char)
    (acc : List CigarOp) :
    parseCigarChars (c :: rest) buf acc =
      if c.isDigit then parseCigarChars rest (buf ++ [c]) acc
      else
        match parseNumBuf buf with
        | .error e => .error e
        | .ok len =>
          match CigarOp.new len c with
          | .error _ => .error ParseErr.InvalidCigarFormat
          | .ok op => parseCigarChars rest [] (acc ++ [op]) := rfl

theorem CigarOp.new_error_of_unknown (len : Int) (c : Char) (h1 : c ≠ '=')
    (h2 : c ≠ 'X') (h3 : c ≠ 'I') (h4 : c ≠ 'D') :
    CigarOp.new len c = .error "Invalid CIGAR operation" := by
  simp [CigarOp.new, h1, h2, h3, h4]

/-- Any input containing a character that is neither a digit nor a valid
opcode makes the parser fail, whatever the buffer and accumulator. -/
theorem parseCigarChars_error :
    ∀ s : List Char,
      (∃ ch ∈ s, ¬ ch.isDigit ∧ ch ≠ '=' ∧ ch ≠ 'X' ∧ ch ≠ 'I' ∧ ch ≠ 'D') →
      ∀ (buf : List Char) (acc : List CigarOp),
        parseCigarChars s buf acc = .error ParseErr.InvalidCigarFormat := by
  intro s
  induction s with
  | nil =>
    rintro ⟨ch, hch, -⟩
    simp at hch
  | cons c rest ih =>
    rintro ⟨ch, hch, hnd, h1, h2, h3, h4⟩ buf acc
    rw [parseCigarChars_cons]
    rcases List.mem_cons.mp hch with rfl | hmem
    · rw [if_neg hnd]
      cases hpb : parseNumBuf buf with
      | error e => cases e; simp [hpb]
      | ok len => simp [hpb, CigarOp.new_error_of_unknown len ch h1 h2 h3 h4]
    · by_cases hd : c.isDigit
      · rw [if_pos hd]
        exact ih ⟨ch, hmem, hnd, h1, h2, h3, h4⟩ _ _
      · rw [if_neg hd]
        cases hpb : parseNumBuf buf with
        | error e => cases e; simp [hpb]
        | ok len =>
          cases hnew : CigarOp.new len c with
          | error msg => simp [hpb, hnew]
          | ok op =>
            simp only [hpb, hnew]
            exact ih ⟨ch, hmem, hnd, h1, h2, h3, h4⟩ _ _

/-- A digit-only tail never produces an op: the buffer is filled and then
dropped at end of input. -/
theorem parseCigarChars_digits :
    ∀ ds : List Char, (∀ ch ∈ ds, ch.isDigit) →
      ∀ (buf : List Char) (acc : List CigarOp),
        parseCigarChars ds buf acc = .ok acc := by
  intro ds
  induction ds with
  | nil => intro _ buf acc; rfl
  | cons c t ih =>
    intro h buf acc
    rw [parseCigarChars_cons, if_pos (h c (List.mem_cons_self c t))]
    exact ih (fun ch hch => h ch (List.mem_cons_of_mem _ hch)) _ _

theorem parseCigarChars_drop_trailing (ds : List Char)
    (hds : ∀ ch ∈ ds, ch.isDigit) :
    ∀ (s buf : List Char) (acc : List CigarOp),
      parseCigarChars (s ++ ds) buf acc = parseCigarChars s buf acc := by
  intro s
  induction s with
  | nil =>
    intro buf acc
    rw [List.nil_append, parseCigarChars_nil, parseCigarChars_digits ds hds]
  | cons c rest ih =>
    intro buf acc
    rw [List.cons_append, parseCigarChars_cons, parseCigarChars_cons]
    by_cases hd : c.isDigit
    · rw [if_pos hd, if_pos hd, ih]
    · rw [if_neg hd, if_neg hd]
      cases hpb : parseNumBuf buf with
      | error e => simp [hpb]
      | ok len =>
        cases hnew : CigarOp.new len c with
        | error msg => simp [hpb, hnew]
        | ok op => simp only [hpb, hnew]; exact ih _ _

/-- C6 (amended): the parser fails with `InvalidCigarFormat` on any input
containing a character outside the digits and the `=XID` alphabet; a
trailing digit run not followed by an opcode is silently discarded —
`parse(s ++ digits) = parse(s)` — rather than rejected. -/
theorem parse_cigar_errors_amended :
    (∀ s : List Char,
        (∃ ch ∈ s, ¬ ch.isDigit ∧ ch ≠ '=' ∧ ch ≠ 'X' ∧ ch ≠ 'I' ∧ ch ≠ 'D') →
        parse_cigar_to_delta s = .error ParseErr.InvalidCigarFormat) ∧
    (∀ s ds : List Char, (∀ ch ∈ ds, ch.isDigit) →
        parse_cigar_to_delta (s ++ ds) = parse_cigar_to_delta s) := by
  constructor
  · intro s hs
    exact parseCigarChars_error s hs [] []
  · intro s ds hds
    exact parseCigarChars_drop_trailing ds hds s [] []

theorem parse_cigar_errors_amended_witness :
    parse_cigar_to_delta ['1', '0', '=', '5', 'Q'] =
        .error ParseErr.InvalidCigarFormat ∧
      parse_cigar_to_delta (['1', '0', '='] ++ ['5']) =
        parse_cigar_to_delta ['1', '0', '='] :=
  ⟨parse_cigar_errors_amended.1 ['1', '0', '=', '5', 'Q']
      ⟨'Q', by decide, by decide, by decide, by decide, by decide, by decide⟩,
   parse_cigar_errors_amended.2 ['1', '0', '='] ['5'] (by decide)⟩

/-! Zero-length ops. -/

theorem project_eq_fold (tr : Int × Int) (tS tE qS qE : Int) (strand : Strand)
    (ops : List CigarOp) :
    project_target_range_through_alignment tr (tS, tE, qS, qE, strand) ops =
      projFinish qS strand
        (ops.foldl (projStep tr strand) (projInit tS qS qE strand)) := rfl

theorem projFinish_congr (qS : Int) (strand : Strand) (a b : ProjState)
    (h1 : a.projected_start = b.projected_start)
    (h2 : a.projected_end = b.projected_end)
    (h3 : a.query_pos = b.query_pos) :
    projFinish qS strand a = projFinish qS strand b := by
  unfold projFinish
  rw [h1, h2, h3]

/-- After the cursor has passed the right end of the range, the rest of
the walk never changes the projected fields (the next iteration takes the
break). -/
theorem foldl_projStep_past_break (tr : Int × Int) (strand : Strand)
    (st : ProjState) (hb : st.broke = false) (h : tr.2 < st.target_pos)
    (l : List CigarOp) :
    (l.foldl (projStep tr strand) st).projected_start = st.projected_start ∧
      (l.foldl (projStep tr strand) st).projected_end = st.projected_end ∧
      (l.foldl (projStep tr strand) st).query_pos = st.query_pos := by
  cases l with
  | nil => exact ⟨rfl, rfl, rfl⟩
  | cons c t =>
    rw [List.foldl_cons, projStep_of_break tr strand st c hb h,
      foldl_projStep_of_broke tr strand t _ rfl]
    exact ⟨rfl, rfl, rfl⟩

/-- C4 (amended): a zero-length op is classified as an insertion with both
deltas zero; inserting one anywhere the walk has already stopped, or
where the target cursor lies outside `[target_range.1, target_range.2]`,
leaves the projection unchanged.  (When the cursor lies inside the range
it can change the result — see the counterexample.) -/
theorem project_zero_op_noop_outside_range (tr : Int × Int)
    (tS tE qS qE : Int) (strand : Strand) (l1 l2 : List CigarOp) (z : CigarOp)
    (hz : z.len = 0)
    (hout :
      (l1.foldl (projStep tr strand) (projInit tS qS qE strand)).broke = true ∨
      (l1.foldl (projStep tr strand) (projInit tS qS qE strand)).target_pos < tr.1 ∨
      tr.2 < (l1.foldl (projStep tr strand) (projInit tS qS qE strand)).target_pos) :
    project_target_range_through_alignment tr (tS, tE, qS, qE, strand)
        (l1 ++ z :: l2) =
      project_target_range_through_alignment tr (tS, tE, qS, qE, strand)
        (l1 ++ l2) := by
  rw [project_eq_fold, project_eq_fold, List.foldl_append, List.foldl_append,
    List.foldl_cons]
  set st := l1.foldl (projStep tr strand) (projInit tS qS qE strand) with hst
  by_cases hb : st.broke = true
  · rw [projStep_of_broke tr strand st z hb]
  · rw [Bool.not_eq_true] at hb
    by_cases hbr : tr.2 < st.target_pos
    · rw [projStep_of_break tr strand st z hb hbr]
      obtain ⟨e1, e2, e3⟩ := foldl_projStep_past_break tr strand st hb hbr l2
      rw [foldl_projStep_of_broke tr strand l2 { st with broke := true } rfl]
      exact (projFinish_congr qS strand _ _ e1 e2 e3).symm
    · have htp : st.target_pos < tr.1 := by
        rcases hout with h | h | h
        · rw [h] at hb; cases hb
        · exact h
        · exact absurd h hbr
      have hstep : projStep tr strand st z = st := by
        rw [projStep_ins_out tr strand st z hb hbr
          (CigarOp.target_delta_zero_of_len_zero z hz) (not_le.mpr htp),
          CigarOp.query_delta_zero_of_len_zero z strand hz]
        cases st
        simp
      rw [hstep]

theorem project_zero_op_noop_outside_range_witness :
    (CigarOp.len ⟨0⟩ = 0 ∧
      (3 : Int) < (([⟨5⟩] : List CigarOp).foldl
        (projStep (0, 3) Strand.Forward)
        (projInit 0 0 5 Strand.Forward)).target_pos) ∧
    project_target_range_through_alignment (0, 3) (0, 5, 0, 5, Strand.Forward)
        ([⟨5⟩] ++ ⟨0⟩ :: [⟨7⟩]) =
      project_target_range_through_alignment (0, 3) (0, 5, 0, 5, Strand.Forward)
        ([⟨5⟩] ++ [⟨7⟩]) :=
  ⟨⟨by decide, by decide⟩,
   project_zero_op_noop_outside_range (0, 3) 0 5 0 5 Strand.Forward
     [⟨5⟩] [⟨7⟩] ⟨0⟩ (by decide) (Or.inr (Or.inr (by decide)))⟩

/-! Result ordering: projected pairs are ascending. -/

theorem CigarOp.query_delta_fwd_nonneg (c : CigarOp) :
    0 ≤ c.query_delta Strand.Forward := by
  rw [CigarOp.query_delta_eq]
  simpa using queryAbs_nonneg c

theorem CigarOp.query_delta_rev_nonpos (c : CigarOp) :
    c.query_delta Strand.Reverse ≤ 0 := by
  rw [CigarOp.query_delta_eq]
  have := queryAbs_nonneg c
  simp only [show (Strand.Reverse = Strand.Forward) = False from by simp,
    if_false, neg_one_mul, neg_nonpos]
  exact this

theorem CigarOp.match_deltas_fwd (c : CigarOp) (htd : c.target_delta ≠ 0)
    (hqd : c.query_delta Strand.Forward ≠ 0) :
    c.query_delta Strand.Forward = c.target_delta := by
  have := CigarOp.match_deltas c Strand.Forward htd hqd
  simpa using this

theorem CigarOp.match_deltas_rev (c : CigarOp) (htd : c.target_delta ≠ 0)
    (hqd : c.query_delta Strand.Reverse ≠ 0) :
    c.query_delta Strand.Reverse = -c.target_delta := by
  have := CigarOp.match_deltas c Strand.Reverse htd hqd
  simp only [show (Strand.Reverse = Strand.Forward) = False from by simp,
    if_false, neg_one_mul] at this
  exact this

/-- Each step either leaves the query cursor alone or advances it by the
op's query delta. -/
theorem projStep_query_pos_cases (tr : Int × Int) (strand : Strand)
    (st : ProjState) (c : CigarOp) :
    (projStep tr strand st c).query_pos = st.query_pos ∨
      (projStep tr strand st c).query_pos =
        st.query_pos + c.query_delta strand := by
  by_cases hb : st.broke = true
  · rw [projStep_of_broke tr strand st c hb]; exact Or.inl rfl
  · rw [Bool.not_eq_true] at hb
    by_cases hbr : tr.2 < st.target_pos
    · rw [projStep_of_break tr strand st c hb hbr]; exact Or.inl rfl
    · by_cases htd : c.target_delta = 0
      · by_cases hg : tr.1 ≤ st.target_pos
        · rw [projStep_ins_in tr strand st c hb hbr htd hg]; exact Or.inr rfl
        · rw [projStep_ins_out tr strand st c hb hbr htd hg]; exact Or.inr rfl
      · by_cases hqd : c.query_delta strand = 0
        · by_cases hov : max st.target_pos tr.1 <
              min (st.target_pos + c.target_delta) tr.2
          · rw [projStep_del_ov tr strand st c hb hbr htd hqd hov]
            exact Or.inl rfl
          · rw [projStep_del_no tr strand st c hb hbr htd hqd hov]
            exact Or.inl rfl
        · by_cases hov : max st.target_pos tr.1 <
              min (st.target_pos + c.target_delta) tr.2
          · rw [projStep_match_ov tr strand st c hb hbr htd hqd hov]
            exact Or.inr rfl
          · rw [projStep_match_no tr strand st c hb hbr htd hqd hov]
            exact Or.inr rfl

/-- On the forward strand the query cursor never moves backwards. -/
theorem foldl_projStep_qp_fwd (tr : Int × Int) :
    ∀ (l : List CigarOp) (st : ProjState),
      st.query_pos ≤ (l.foldl (projStep tr Strand.Forward) st).query_pos := by
  intro l
  induction l with
  | nil => intro st; exact le_refl _
  | cons c t ih =>
    intro st
    rw [List.foldl_cons]
    refine le_trans ?_ (ih (projStep tr Strand.Forward st c))
    rcases projStep_query_pos_cases tr Strand.Forward st c with h | h
    · rw [h]
    · rw [h]
      have := CigarOp.query_delta_fwd_nonneg c
      linarith

/-- On the reverse strand the query cursor drops by at most the total
absolute query delta of the remaining ops. -/
theorem foldl_projStep_qp_rev (tr : Int × Int) :
    ∀ (l : List CigarOp) (st : ProjState),
      st.query_pos - queryAbsSum l ≤
        (l.foldl (projStep tr Strand.Reverse) st).query_pos := by
  intro l
  induction l with
  | nil => intro st; simp [queryAbsSum]
  | cons c t ih =>
    intro st
    rw [List.foldl_cons]
    have h1 := ih (projStep tr Strand.Reverse st c)
    have h2 : st.query_pos - queryAbs c ≤
        (projStep tr Strand.Reverse st c).query_pos := by
      rcases projStep_query_pos_cases tr Strand.Reverse st c with h | h
      · rw [h]; have := queryAbs_nonneg c; linarith
      · rw [h, CigarOp.query_delta_eq]
        simp only [show (Strand.Reverse = Strand.Forward) = False from by simp,
          if_false, neg_one_mul]
        linarith
    rw [queryAbsSum_cons]
    linarith

/-- Forward walk invariant: the projected endpoints are either both unset
or both set with `start ≤ end ≤ query_pos`. -/
def fwdInv (st : ProjState) : Prop :=
  (st.projected_start = none ∧ st.projected_end = none) ∨
  (∃ a b, st.projected_start = some a ∧ st.projected_end = some b ∧
    a ≤ b ∧ b ≤ st.query_pos)

/-- Reverse walk invariant: both unset, or both set with
`query_pos ≤ end ≤ start`. -/
def revInv (st : ProjState) : Prop :=
  (st.projected_start = none ∧ st.projected_end = none) ∨
  (∃ a b, st.projected_start = some a ∧ st.projected_end = some b ∧
    b ≤ a ∧ st.query_pos ≤ b)

theorem projStep_fwdInv (tr : Int × Int) (st : ProjState) (c : CigarOp)
    (h : fwdInv st) : fwdInv (projStep tr Strand.Forward st c) := by
  have hqd : 0 ≤ c.query_delta Strand.Forward := CigarOp.query_delta_fwd_nonneg c
  by_cases hb : st.broke = true
  · rw [projStep_of_broke tr Strand.Forward st c hb]; exact h
  · rw [Bool.not_eq_true] at hb
    by_cases hbr : tr.2 < st.target_pos
    · rw [projStep_of_break tr Strand.Forward st c hb hbr]; exact h
    · by_cases htd : c.target_delta = 0
      · by_cases hg : tr.1 ≤ st.target_pos
        · rw [projStep_ins_in tr Strand.Forward st c hb hbr htd hg]
          rcases h with ⟨h1, _⟩ | ⟨a, b, ha, _, hab, hbq⟩
          · exact Or.inr ⟨st.query_pos, st.query_pos,
              by show some (st.projected_start.getD st.query_pos) = _; rw [h1]; rfl,
              rfl, le_refl _, by show st.query_pos ≤ st.query_pos + _; linarith⟩
          · exact Or.inr ⟨a, st.query_pos,
              by show some (st.projected_start.getD st.query_pos) = some a; rw [ha]; rfl,
              rfl, by linarith,
              by show st.query_pos ≤ st.query_pos + _; linarith⟩
        · rw [projStep_ins_out tr Strand.Forward st c hb hbr htd hg]
          rcases h with ⟨h1, h2⟩ | ⟨a, b, ha, hb2, hab, hbq⟩
          · exact Or.inl ⟨h1, h2⟩
          · exact Or.inr ⟨a, b, ha, hb2, hab,
              by show b ≤ st.query_pos + _; linarith⟩
      · by_cases hqd0 : c.query_delta Strand.Forward = 0
        · by_cases hov : max st.target_pos tr.1 <
              min (st.target_pos + c.target_delta) tr.2
          · rw [projStep_del_ov tr Strand.Forward st c hb hbr htd hqd0 hov]
            rcases h with ⟨h1, _⟩ | ⟨a, b, ha, _, hab, hbq⟩
            · exact Or.inr ⟨st.query_pos, st.query_pos,
                by show some (st.projected_start.getD st.query_pos) = _; rw [h1]; rfl,
                rfl, le_refl _, le_refl _⟩
            · exact Or.inr ⟨a, st.query_pos,
                by show some (st.projected_start.getD st.query_pos) = some a;
                   rw [ha]; rfl,
                rfl, by linarith, le_refl _⟩
          · rw [projStep_del_no tr Strand.Forward st c hb hbr htd hqd0 hov]
            exact h
        · by_cases hov : max st.target_pos tr.1 <
              min (st.target_pos + c.target_delta) tr.2
          · rw [projStep_match_ov tr Strand.Forward st c hb hbr htd hqd0 hov]
            have hde : c.query_delta Strand.Forward = c.target_delta :=
              CigarOp.match_deltas_fwd c htd hqd0
            have hmaxtp : st.target_pos ≤ max st.target_pos tr.1 := le_max_left _ _
            have hminle : min (st.target_pos + c.target_delta) tr.2 ≤
                st.target_pos + c.target_delta := min_le_left _ _
            simp only [show (Strand.Forward = Strand.Forward) = True from by simp,
              if_true, mul_one]
            rcases h with ⟨h1, _⟩ | ⟨a, b, ha, _, hab, hbq⟩
            · refine Or.inr ⟨st.query_pos + (max st.target_pos tr.1 - st.target_pos),
                st.query_pos + (max st.target_pos tr.1 - st.target_pos) +
                  (min (st.target_pos + c.target_delta) tr.2 -
                    max st.target_pos tr.1), ?_, rfl, by linarith, ?_⟩
              · show some (st.projected_start.getD _) = _
                rw [h1]; rfl
              · show _ ≤ st.query_pos + c.query_delta Strand.Forward
                rw [hde]; linarith
            · refine Or.inr ⟨a,
                st.query_pos + (max st.target_pos tr.1 - st.target_pos) +
                  (min (st.target_pos + c.target_delta) tr.2 -
                    max st.target_pos tr.1), ?_, rfl, by linarith, ?_⟩
              · show some (st.projected_start.getD _) = some a
                rw [ha]; rfl
              · show _ ≤ st.query_pos + c.query_delta Strand.Forward
                rw [hde]; linarith
          · rw [projStep_match_no tr Strand.Forward st c hb hbr htd hqd0 hov]
            rcases h with ⟨h1, h2⟩ | ⟨a, b, ha, hb2, hab, hbq⟩
            · exact Or.inl ⟨h1, h2⟩
            · exact Or.inr ⟨a, b, ha, hb2, hab,
                by show b ≤ st.query_pos + _; linarith⟩

theorem projStep_revInv (tr : Int × Int) (st : ProjState) (c : CigarOp)
    (h : revInv st) : revInv (projStep tr Strand.Reverse st c) := by
  have hqd : c.query_delta Strand.Reverse ≤ 0 := CigarOp.query_delta_rev_nonpos c
  by_cases hb : st.broke = true
  · rw [projStep_of_broke tr Strand.Reverse st c hb]; exact h
  · rw [Bool.not_eq_true] at hb
    by_cases hbr : tr.2 < st.target_pos
    · rw [projStep_of_break tr Strand.Reverse st c hb hbr]; exact h
    · by_cases htd : c.target_delta = 0
      · by_cases hg : tr.1 ≤ st.target_pos
        · rw [projStep_ins_in tr Strand.Reverse st c hb hbr htd hg]
          rcases h with ⟨h1, _⟩ | ⟨a, b, ha, _, hab, hbq⟩
          · exact Or.inr ⟨st.query_pos, st.query_pos,
              by show some (st.projected_start.getD st.query_pos) = _; rw [h1]; rfl,
              rfl, le_refl _, by show st.query_pos + _ ≤ st.query_pos; linarith⟩
          · exact Or.inr ⟨a, st.query_pos,
              by show some (st.projected_start.getD st.query_pos) = some a;
                 rw [ha]; rfl,
              rfl, by linarith,
              by show st.query_pos + _ ≤ st.query_pos; linarith⟩
        · rw [projStep_ins_out tr Strand.Reverse st c hb hbr htd hg]
          rcases h with ⟨h1, h2⟩ | ⟨a, b, ha, hb2, hab, hbq⟩
          · exact Or.inl ⟨h1, h2⟩
          · exact Or.inr ⟨a, b, ha, hb2, hab,
              by show st.query_pos + _ ≤ b; linarith⟩
      · by_cases hqd0 : c.query_delta Strand.Reverse = 0
        · by_cases hov : max st.target_pos tr.1 <
              min (st.target_pos + c.target_delta) tr.2
          · rw [projStep_del_ov tr Strand.Reverse st c hb hbr htd hqd0 hov]
            rcases h with ⟨h1, _⟩ | ⟨a, b, ha, _, hab, hbq⟩
            · exact Or.inr ⟨st.query_pos, st.query_pos,
                by show some (st.projected_start.getD st.query_pos) = _;
                   rw [h1]; rfl,
                rfl, le_refl _, le_refl _⟩
            · exact Or.inr ⟨a, st.query_pos,
                by show some (st.projected_start.getD st.query_pos) = some a;
                   rw [ha]; rfl,
                rfl, by linarith, le_refl _⟩
          · rw [projStep_del_no tr Strand.Reverse st c hb hbr htd hqd0 hov]
            exact h
        · by_cases hov : max st.target_pos tr.1 <
              min (st.target_pos + c.target_delta) tr.2
          · rw [projStep_match_ov tr Strand.Reverse st c hb hbr htd hqd0 hov]
            have hde : c.query_delta Strand.Reverse = -c.target_delta :=
              CigarOp.match_deltas_rev c htd hqd0
            have hmaxtp : st.target_pos ≤ max st.target_pos tr.1 := le_max_left _ _
            have hminle : min (st.target_pos + c.target_delta) tr.2 ≤
                st.target_pos + c.target_delta := min_le_left _ _
            simp only [show (Strand.Reverse = Strand.Forward) = False from by simp,
              if_false, mul_neg_one]
            rcases h with ⟨h1, _⟩ | ⟨a, b, ha, _, hab, hbq⟩
            · refine Or.inr ⟨st.query_pos - (max st.target_pos tr.1 - st.target_pos),
                st.query_pos - (max st.target_pos tr.1 - st.target_pos) -
                  (min (st.target_pos + c.target_delta) tr.2 -
                    max st.target_pos tr.1), ?_, rfl, by linarith, ?_⟩
              · show some (st.projected_start.getD _) = _
                rw [h1]; rfl
              · show st.query_pos + c.query_delta Strand.Reverse ≤ _
                rw [hde]; linarith
            · refine Or.inr ⟨a,
                st.query_pos - (max st.target_pos tr.1 - st.target_pos) -
                  (min (st.target_pos + c.target_delta) tr.2 -
                    max st.target_pos tr.1), ?_, rfl, by linarith, ?_⟩
              · show some (st.projected_start.getD _) = some a
                rw [ha]; rfl
              · show st.query_pos + c.query_delta Strand.Reverse ≤ _
                rw [hde]; linarith
          · rw [projStep_match_no tr Strand.Reverse st c hb hbr htd hqd0 hov]
            rcases h with ⟨h1, h2⟩ | ⟨a, b, ha, hb2, hab, hbq⟩
            · exact Or.inl ⟨h1, h2⟩
            · exact Or.inr ⟨a, b, ha, hb2, hab,
                by show st.query_pos + _ ≤ b; linarith⟩

theorem foldl_projStep_fwdInv (tr : Int × Int) :
    ∀ (l : List CigarOp) (st : ProjState), fwdInv st →
      fwdInv (l.foldl (projStep tr Strand.Forward) st) := by
  intro l
  induction l with
  | nil => exact fun st h => h
  | cons c t ih =>
    intro st h
    rw [List.foldl_cons]
    exact ih _ (projStep_fwdInv tr st c h)

theorem foldl_projStep_revInv (tr : Int × Int) :
    ∀ (l : List CigarOp) (st : ProjState), revInv st →
      revInv (l.foldl (projStep tr Strand.Reverse) st) := by
  intro l
  induction l with
  | nil => exact fun st h => h
  | cons c t ih =>
    intro st h
    rw [List.foldl_cons]
    exact ih _ (projStep_revInv tr st c h)

/-- C7: for every record whose CIGAR satisfies the construction invariant
on the query span (sum of absolute query deltas = `query_end` −
`query_start`) and for every target range (including degenerate or
reversed ones), the pair returned by
`project_target_range_through_alignment` is in ascending order — in
particular after the reverse-strand swap and in the no-overlap default
case.  (On the forward strand the invariant hypothesis is not even
needed.) -/
theorem project_first_le_last (tr : Int × Int) (tS tE qS qE : Int)
    (strand : Strand) (ops : List CigarOp)
    (hq : queryAbsSum ops = qE - qS) :
    (project_target_range_through_alignment tr (tS, tE, qS, qE, strand) ops).1 ≤
      (project_target_range_through_alignment tr (tS, tE, qS, qE, strand) ops).2 := by
  rw [project_eq_fold]
  cases strand with
  | Forward =>
    have hinv := foldl_projStep_fwdInv tr ops (projInit tS qS qE Strand.Forward)
      (Or.inl ⟨rfl, rfl⟩)
    have hqp := foldl_projStep_qp_fwd tr ops (projInit tS qS qE Strand.Forward)
    set st := ops.foldl (projStep tr Strand.Forward)
      (projInit tS qS qE Strand.Forward) with hst
    have hqS : qS ≤ st.query_pos := by
      simpa [projInit] using hqp
    unfold projFinish
    simp only [show (Strand.Forward = Strand.Reverse) = False from by simp,
      if_false]
    rcases hinv with ⟨h1, h2⟩ | ⟨a, b, ha, hb, hab, _⟩
    · rw [h1, h2]
      simpa using hqS
    · rw [ha, hb]
      simpa using hab
  | Reverse =>
    have hinv := foldl_projStep_revInv tr ops (projInit tS qS qE Strand.Reverse)
      (Or.inl ⟨rfl, rfl⟩)
    have hqp := foldl_projStep_qp_rev tr ops (projInit tS qS qE Strand.Reverse)
    set st := ops.foldl (projStep tr Strand.Reverse)
      (projInit tS qS qE Strand.Reverse) with hst
    have hqS : qS ≤ st.query_pos := by
      have : (projInit tS qS qE Strand.Reverse).query_pos = qE := by
        simp [projInit]
      rw [this, hq] at hqp
      linarith
    unfold projFinish
    simp only [show (Strand.Reverse = Strand.Reverse) = True from by simp,
      if_true]
    rcases hinv with ⟨h1, h2⟩ | ⟨a, b, ha, hb, hab, _⟩
    · rw [h1, h2]
      simpa using hqS
    · rw [ha, hb]
      simpa using hab

/-! The projection formula for all-`=` CIGARs. -/

/-- The sign of query movement: `+1` forward, `-1` reverse, as in the
`dir` local of the match branch. -/
def strandDir (strand : Strand) : Int :=
  if strand = Strand.Forward then 1 else -1

theorem strandDir_cases (strand : Strand) :
    strandDir strand = 1 ∨ strandDir strand = -1 := by
  cases strand <;> simp [strandDir]

theorem eq_op_target_delta (c : CigarOp) (hop : c.op = '=') :
    c.target_delta = c.len := by
  simp [CigarOp.target_delta, hop]

theorem eq_op_query_delta (c : CigarOp) (hop : c.op = '=') (strand : Strand) :
    c.query_delta strand = strandDir strand * c.len := by
  cases strand <;> simp [CigarOp.query_delta, hop, strandDir, neg_one_mul]

/-- Invariant of a walk over an all-`=` CIGAR against range `[s, e]`:
the query cursor tracks the target cursor affinely
(`query_pos = cst + dir * target_pos`), and either nothing has been
projected yet and the cursor has not passed `s`, or the projected pair is
exactly the image of `[s, min target_pos e]`. -/
def eqWalkInv (s e cst dir : Int) (st : ProjState) : Prop :=
  st.query_pos = cst + dir * st.target_pos ∧
  ((st.projected_start = none ∧ st.projected_end = none ∧ st.broke = false ∧
      st.target_pos ≤ s) ∨
    (st.projected_start = some (cst + dir * s) ∧
      st.projected_end = some (cst + dir * max s (min st.target_pos e)) ∧
      s ≤ st.target_pos)) ∧
  (st.broke = true → e < st.target_pos)

theorem projStep_eqWalkInv (s e cst : Int) (strand : Strand) (hse : s < e)
    (c : CigarOp) (hop : c.op = '=') (st : ProjState)
    (h : eqWalkInv s e cst (strandDir strand) st) :
    eqWalkInv s e cst (strandDir strand) (projStep (s, e) strand st c) := by
  obtain ⟨hqp, hphase, hbk⟩ := h
  have htd : c.target_delta = c.len := eq_op_target_delta c hop
  have hqd : c.query_delta strand = strandDir strand * c.len :=
    eq_op_query_delta c hop strand
  have hlen : 0 ≤ c.len := c.len_nonneg
  by_cases hb : st.broke = true
  · rw [projStep_of_broke _ _ _ _ hb]; exact ⟨hqp, hphase, hbk⟩
  · rw [Bool.not_eq_true] at hb
    by_cases hbr : e < st.target_pos
    · rw [projStep_of_break (s, e) strand st c hb hbr]
      refine ⟨hqp, ?_, fun _ => hbr⟩
      rcases hphase with ⟨_, _, _, hts'⟩ | hsec
      · exact absurd (lt_of_lt_of_le hbr hts') (by linarith)
      · exact Or.inr hsec
    · by_cases htd0 : c.target_delta = 0
      · have hlen0 : c.len = 0 := by rw [htd] at htd0; exact htd0
        have hqd0 : c.query_delta strand = 0 := by rw [hqd, hlen0, mul_zero]
        by_cases hg : s ≤ st.target_pos
        · rw [projStep_ins_in (s, e) strand st c hb hbr htd0 hg]
          refine ⟨?_, Or.inr ?_, ?_⟩
          · show st.query_pos + c.query_delta strand = _
            rw [hqd0, add_zero]; exact hqp
          · rcases hphase with ⟨hps, hpe, _, hts'⟩ | ⟨hps, hpe, hts'⟩
            · have hteq : st.target_pos = s := le_antisymm hts' hg
              refine ⟨?_, ?_, hg⟩
              · show some (st.projected_start.getD st.query_pos) = _
                rw [hps, Option.getD_none, hqp, hteq]
              · show some st.query_pos = some (cst + strandDir strand *
                  max s (min st.target_pos e))
                rw [hqp, hteq, min_eq_left (le_of_lt hse), max_self]
            · refine ⟨?_, ?_, hg⟩
              · show some (st.projected_start.getD st.query_pos) = _
                rw [hps, Option.getD_some]
              · show some st.query_pos = some (cst + strandDir strand *
                  max s (min st.target_pos e))
                rw [hqp, min_eq_left (not_lt.mp hbr), max_eq_right hg]
          · intro hx
            have hx2 : st.broke = true := hx
            rw [hb] at hx2; simp at hx2
        · rw [projStep_ins_out (s, e) strand st c hb hbr htd0 hg]
          have htps : st.target_pos < s := not_le.mp hg
          refine ⟨?_, ?_, ?_⟩
          · show st.query_pos + c.query_delta strand = _
            rw [hqd0, add_zero]; exact hqp
          · rcases hphase with ⟨hps, hpe, _, hts'⟩ | ⟨_, _, hts'⟩
            · exact Or.inl ⟨hps, hpe, hb, hts'⟩
            · exact absurd hts' (not_le.mpr htps)
          · intro hx
            have hx2 : st.broke = true := hx
            rw [hb] at hx2; simp at hx2
      · have hlen0 : c.len ≠ 0 := fun hl => htd0 (by rw [htd, hl])
        have hlenpos : 0 < c.len := lt_of_le_of_ne hlen (Ne.symm hlen0)
        have hdirn : strandDir strand ≠ 0 := by
          rcases strandDir_cases strand with hd | hd <;> rw [hd] <;> norm_num
        have hqdn : c.query_delta strand ≠ 0 := by
          rw [hqd]; exact mul_ne_zero hdirn hlen0
        by_cases hov : max st.target_pos s <
            min (st.target_pos + c.target_delta) e
        · rw [projStep_match_ov (s, e) strand st c hb hbr htd0 hqdn hov]
          refine ⟨?_, Or.inr ?_, ?_⟩
          · show st.query_pos + c.query_delta strand =
              cst + strandDir strand * (st.target_pos + c.target_delta)
            rw [hqd, htd, hqp]; ring
          · have hminle : min (st.target_pos + c.target_delta) e ≤
                st.target_pos + c.target_delta := min_le_left _ _
            rcases hphase with ⟨hps, hpe, _, hts'⟩ | ⟨hps, hpe, hts'⟩
            · have hmax : max st.target_pos s = s := max_eq_right hts'
              have hsmin : s < min (st.target_pos + c.target_delta) e := by
                rw [hmax] at hov; exact hov
              refine ⟨?_, ?_, by
                show s ≤ st.target_pos + c.target_delta; linarith⟩
              · show some (st.projected_start.getD (st.query_pos +
                    (max st.target_pos s - st.target_pos) * strandDir strand)) = _
                rw [hps, Option.getD_none, hmax, hqp]
                exact congrArg some (by ring)
              · show some (st.query_pos +
                    (max st.target_pos s - st.target_pos) * strandDir strand +
                    (min (st.target_pos + c.target_delta) e -
                      max st.target_pos s) * strandDir strand) =
                  some (cst + strandDir strand *
                    max s (min (st.target_pos + c.target_delta) e))
                rw [hmax, hqp, max_eq_right (le_of_lt hsmin)]
                exact congrArg some (by ring)
            · have hmax : max st.target_pos s = st.target_pos := max_eq_left hts'
              have htpmin : st.target_pos <
                  min (st.target_pos + c.target_delta) e := by
                rw [hmax] at hov; exact hov
              refine ⟨?_, ?_, by
                show s ≤ st.target_pos + c.target_delta
                rw [htd]; linarith⟩
              · show some (st.projected_start.getD _) = _
                rw [hps, Option.getD_some]
              · show some (st.query_pos +
                    (max st.target_pos s - st.target_pos) * strandDir strand +
                    (min (st.target_pos + c.target_delta) e -
                      max st.target_pos s) * strandDir strand) =
                  some (cst + strandDir strand *
                    max s (min (st.target_pos + c.target_delta) e))
                rw [hmax, hqp, max_eq_right (by linarith :
                  s ≤ min (st.target_pos + c.target_delta) e)]
                exact congrArg some (by ring)
          · intro hx
            have hx2 : st.broke = true := hx
            rw [hb] at hx2; simp at hx2
        · rw [projStep_match_no (s, e) strand st c hb hbr htd0 hqdn hov]
          refine ⟨?_, ?_, ?_⟩
          · show st.query_pos + c.query_delta strand =
              cst + strandDir strand * (st.target_pos + c.target_delta)
            rw [hqd, htd, hqp]; ring
          · rcases hphase with ⟨hps, hpe, _, hts'⟩ | ⟨hps, hpe, hts'⟩
            · left
              have hmax : max st.target_pos s = s := max_eq_right hts'
              rw [hmax] at hov
              have hmin : min (st.target_pos + c.target_delta) e ≤ s :=
                not_lt.mp hov
              have hadv : st.target_pos + c.target_delta ≤ s := by
                rcases le_or_lt (st.target_pos + c.target_delta) e with hc | hc
                · rw [min_eq_left hc] at hmin; exact hmin
                · rw [min_eq_right (le_of_lt hc)] at hmin; linarith
              exact ⟨hps, hpe, hb, hadv⟩
            · right
              have hmax : max st.target_pos s = st.target_pos := max_eq_left hts'
              rw [hmax] at hov
              have hmin : min (st.target_pos + c.target_delta) e ≤
                  st.target_pos := not_lt.mp hov
              have hetp : e ≤ st.target_pos := by
                rcases le_or_lt (st.target_pos + c.target_delta) e with hc | hc
                · rw [min_eq_left hc] at hmin; rw [htd] at hmin; linarith
                · rw [min_eq_right (le_of_lt hc)] at hmin; exact hmin
              refine ⟨hps, ?_, by
                show s ≤ st.target_pos + c.target_delta
                rw [htd]; linarith⟩
              show st.projected_end = some (cst + strandDir strand *
                max s (min (st.target_pos + c.target_delta) e))
              rw [hpe, min_eq_right hetp,
                min_eq_right (by rw [htd]; linarith : e ≤ st.target_pos + c.target_delta)]
          · intro hx
            have hx2 : st.broke = true := hx
            rw [hb] at hx2; simp at hx2

theorem foldl_projStep_eqWalkInv (s e cst : Int) (strand : Strand)
    (hse : s < e) :
    ∀ l : List CigarOp, (∀ o ∈ l, o.op = '=') → ∀ st : ProjState,
      eqWalkInv s e cst (strandDir strand) st →
      eqWalkInv s e cst (strandDir strand)
        (l.foldl (projStep (s, e) strand) st) := by
  intro l
  induction l with
  | nil => exact fun _ st h => h
  | cons c t ih =>
    intro hall st h
    rw [List.foldl_cons]
    exact ih (fun o ho => hall o (List.mem_cons_of_mem _ ho)) _
      (projStep_eqWalkInv s e cst strand hse c
        (hall c (List.mem_cons_self c t)) st h)

/-- C3 (amended): for a record satisfying the construction invariants
whose CIGAR is all `=` ops, and a non-degenerate target range inside the
record, projection is the affine translation of the range into query
coordinates: forward `(qS + (s − tS), qS + (e − tS))`, reverse
`(qS + (tE − e), qS + (tE − s))`. -/
theorem project_eq_ops_formula (s e tS tE qS qE : Int) (strand : Strand)
    (ops : List CigarOp) (hall : ∀ o ∈ ops, o.op = '=')
    (hts : targetSum ops = tE - tS) (hspan : qE - qS = tE - tS)
    (h1 : tS ≤ s) (h2 : s < e) (h3 : e ≤ tE) :
    project_target_range_through_alignment (s, e) (tS, tE, qS, qE, strand) ops =
      if strand = Strand.Forward then (qS + (s - tS), qS + (e - tS))
      else (qS + (tE - e), qS + (tE - s)) := by
  rw [project_eq_fold]
  have hinit : eqWalkInv s e
      ((if strand = Strand.Forward then qS else qE) - strandDir strand * tS)
      (strandDir strand) (projInit tS qS qE strand) := by
    refine ⟨?_, Or.inl ⟨rfl, rfl, rfl, h1⟩, by intro hx; simp [projInit] at hx⟩
    show (if strand = Strand.Forward then qS else qE) = _
    simp only [projInit]
    ring
  have hfin := foldl_projStep_eqWalkInv s e
    ((if strand = Strand.Forward then qS else qE) - strandDir strand * tS)
    strand h2 ops hall _ hinit
  set cst := (if strand = Strand.Forward then qS else qE) -
    strandDir strand * tS with hcst
  set st := ops.foldl (projStep (s, e) strand) (projInit tS qS qE strand)
    with hst
  obtain ⟨hqp, hphase, hbk⟩ := hfin
  have hsec : st.projected_start = some (cst + strandDir strand * s) ∧
      st.projected_end = some (cst + strandDir strand * e) := by
    by_cases hb : st.broke = true
    · have hetp := hbk hb
      rcases hphase with ⟨_, _, hbf, _⟩ | ⟨hps, hpe, _⟩
      · rw [hbf] at hb; simp at hb
      · refine ⟨hps, ?_⟩
        rw [hpe, min_eq_right (le_of_lt hetp),
          max_eq_right (le_of_lt h2)]
    · rw [Bool.not_eq_true] at hb
      have htp : st.target_pos = tE := by
        have := foldl_projStep_tp (s, e) strand ops
          (projInit tS qS qE strand) (by rw [← hst]; exact hb)
        rw [← hst] at this
        rw [this, hts]
        simp only [projInit]
        ring
      rcases hphase with ⟨_, _, _, hts'⟩ | ⟨hps, hpe, _⟩
      · rw [htp] at hts'; linarith
      · refine ⟨hps, ?_⟩
        rw [hpe, htp, min_eq_right h3, max_eq_right (le_of_lt h2)]
  obtain ⟨hps, hpe⟩ := hsec
  unfold projFinish
  cases strand with
  | Forward =>
    simp only [show (Strand.Forward = Strand.Reverse) = False from by simp,
      if_false, show (Strand.Forward = Strand.Forward) = True from by simp,
      if_true]
    rw [hps, hpe]
    simp only [Option.getD_some]
    have hd : strandDir Strand.Forward = 1 := by simp [strandDir]
    have hc : cst = qS - 1 * tS := by
      rw [hcst, hd]; simp
    rw [hd, hc]
    simp only [Prod.mk.injEq]
    constructor <;> ring
  | Reverse =>
    simp only [show (Strand.Reverse = Strand.Reverse) = True from by simp,
      if_true, show (Strand.Reverse = Strand.Forward) = False from by simp,
      if_false]
    rw [hps, hpe]
    simp only [Option.getD_some]
    have hd : strandDir Strand.Reverse = -1 := by simp [strandDir]
    have hc : cst = qE - (-1) * tS := by
      rw [hcst, hd]; simp
    rw [hd, hc]
    have hqE : qE = qS + (tE - tS) := by linarith
    rw [hqE]
    simp only [Prod.mk.injEq]
    constructor <;> ring

theorem project_eq_ops_formula_witness :
    project_target_range_through_alignment (100, 200)
        (100, 200, 0, 100, Strand.Reverse) [⟨100⟩] =
      if Strand.Reverse = Strand.Forward then
        ((0 : Int) + (100 - 100), (0 : Int) + (200 - 100))
      else ((0 : Int) + (200 - 200), (0 : Int) + (200 - 100)) :=
  project_eq_ops_formula 100 200 100 200 0 100 Strand.Reverse [⟨100⟩]
    (by decide) (by decide) (by decide) (by decide) (by decide) (by decide)

theorem project_first_le_last_witness :
    queryAbsSum [(⟨100⟩ : CigarOp)] = 100 - 0 ∧
      (project_target_range_through_alignment (100, 200)
        (100, 200, 0, 100, Strand.Reverse) [⟨100⟩]).1 ≤
      (project_target_range_through_alignment (100, 200)
        (100, 200, 0, 100, Strand.Reverse) [⟨100⟩]).2 :=
  ⟨by decide,
   project_first_le_last (100, 200) 100 200 0 100 Strand.Reverse [⟨100⟩]
     (by decide)⟩

end ImpgLib
